import Mathlib

/-! # Sanskrit suffix identifier (`MinorProject.c`)

A shallow embedding of the suffix registry (a singly linked list of
`SuffixNode`s) and of the longest-suffix-match analyzer, followed by the
properties of the specification that are settled against it.

Conventions of the embedding:

* a C string is the list of its bytes before the terminating NUL;
* the linked list is the list of its nodes in `next` order, and a pointer to
  a node of the list is the pair of the node's position and its contents;
* `int` quantities are `Int`s; `strlen` is the exact length, which is the
  value of `(int)strlen` for the strings of fewer than 2^31 bytes the program
  handles, and `toInt32`, `hasSuffixInt32` carry out the narrowing to a
  32-bit `int` for the claim on `hasSuffix` over strings of any length;
* `printf` output is returned as structured data (`Output`, display rows);
* `malloc` is assumed to succeed;
* the section on the list in memory gives the same functions on a memory of
  nodes linked by `next` pointers, each returning the memory it leaves, and
  the functions on the list of entries are shown to be what they compute.
-/

set_option autoImplicit false

namespace MinorProject

/-! ## Data model -/

/-- A C string: its bytes up to, and without, the terminating NUL. -/
abbrev CStr := List Char

/-- `#define MAX_SUFFIX_LEN 20` -/
def MAX_SUFFIX_LEN : Nat := 20

/-- `#define MAX_TYPE_LEN 80` -/
def MAX_TYPE_LEN : Nat := 80

/-- `#define MAX_WORD_LEN 100`: the size of the buffers `word` of `main` and
`stem` of `analyzeWord`. -/
def MAX_WORD_LEN : Nat := 100

/-- The payload of `struct SuffixNode`; the `next` pointer is the tail of the
list the node sits in. -/
structure SuffixNode where
  suffix : CStr
  category : CStr
deriving DecidableEq

/-- A pointer to a node of the list: the position of the node and its
contents (`NULL` is `none` of `Option NodePtr`). -/
abbrev NodePtr := Nat × SuffixNode

/-! ## C library functions used by the program -/

/-- The C expression `(int)strlen(s)` for a string of fewer than 2^31 bytes:
its length. -/
def strlen (s : CStr) : Int := (s.length : Int)

/-- The conversion `(int)n` of a `size_t` value to a 32-bit `int`: `n` modulo
2^32, read in two's complement. -/
def toInt32 (n : Nat) : Int := (((n + 2 ^ 31) % 2 ^ 32 : Nat) : Int) - 2 ^ 31

/-- The C function `strcmp`: zero on equal strings, otherwise negative or
positive by the first differing byte (a proper prefix compares smaller).
Only the sign is fixed by the C standard. -/
def strcmp : CStr → CStr → Int
  | [], [] => 0
  | [], _ :: _ => -1
  | _ :: _, [] => 1
  | a :: as, b :: bs =>
    if a = b then strcmp as bs
    else if a.toNat < b.toNat then -1 else 1

/-! ## Registry operations -/

/-- `createNode`: both fields are copied with `strncpy(dst, src, MAX - 1)` and
`dst[MAX - 1] = 0`, which stores the first `MAX - 1` bytes of the source. -/
def createNode (suffix category : CStr) : SuffixNode :=
  { suffix := suffix.take (MAX_SUFFIX_LEN - 1)
    category := category.take (MAX_TYPE_LEN - 1) }

/-- `insertSuffix`: an empty list becomes the new node; otherwise the list is
walked to its last node, whose `next` becomes the new node. -/
def insertSuffix : List SuffixNode → CStr → CStr → List SuffixNode
  | [], suffix, category => [createNode suffix category]
  | node :: next, suffix, category => node :: insertSuffix next suffix category

/-- The `while (head != NULL)` loop of `displaySuffixes`: one row
`(index, suffix, category)` per node. -/
def displayLoop : List SuffixNode → Nat → List (Nat × CStr × CStr)
  | [], _ => []
  | node :: next, index =>
    (index, node.suffix, node.category) :: displayLoop next (index + 1)

/-- `displaySuffixes`: the rows printed, numbered from 1 (no row for the
empty list, where only a notice is printed). -/
def displaySuffixes (head : List SuffixNode) : List (Nat × CStr × CStr) :=
  displayLoop head 1

/-! ## Analyzer -/

/-- `hasSuffix`: compares the end of `word` with `suffix`. -/
def hasSuffix (word suffix : CStr) : Bool :=
  let lw := strlen word
  let ls := strlen suffix
  if ls > lw then false
  else strcmp (word.drop (lw - ls).toNat) suffix == 0

/-- `hasSuffix` with both conversions `(int)strlen(...)` narrowed to 32 bits,
for strings of any length; on strings shorter than 2^31 bytes it is
`hasSuffix`. -/
def hasSuffixInt32 (word suffix : CStr) : Bool :=
  let lw := toInt32 word.length
  let ls := toInt32 suffix.length
  if ls > lw then false
  else strcmp (word.drop (lw - ls).toNat) suffix == 0

/-- The `while (head != NULL)` loop of `findMatchingSuffix`, with the loop
state `bestMatch`, `bestLen` and the position of `head` in the list. -/
def findMatchingSuffixLoop (word : CStr) :
    List SuffixNode → Nat → Option NodePtr → Int → Option NodePtr
  | [], _, bestMatch, _ => bestMatch
  | node :: next, pos, bestMatch, bestLen =>
    if hasSuffix word node.suffix then
      let currentLen := strlen node.suffix
      if currentLen > bestLen then
        findMatchingSuffixLoop word next (pos + 1) (some (pos, node)) currentLen
      else
        findMatchingSuffixLoop word next (pos + 1) bestMatch bestLen
    else
      findMatchingSuffixLoop word next (pos + 1) bestMatch bestLen

/-- `findMatchingSuffix`: `bestMatch = NULL`, `bestLen = 0`, then the loop. -/
def findMatchingSuffix (head : List SuffixNode) (word : CStr) : Option NodePtr :=
  findMatchingSuffixLoop word head 0 none 0

/-- What `analyzeWord` prints. -/
inductive Output where
  /-- `Empty word.` -/
  | emptyWord
  /-- `Word: <word>` and `No known suffix found in the list.` -/
  | noSuffix (word : CStr)
  /-- The four lines word, identified stem, identified suffix, category. -/
  | report (word stem suffix category : CStr)
deriving DecidableEq

/-- The sentinel copied into `stem` when the suffix is the whole word. -/
def noStem : CStr := "(no stem)".toList

/-- `analyzeWord`; a `NULL` word is `none`. In the `else` branch
`strncpy(stem, word, stemLen)` and `stem[stemLen] = 0` leave the first
`stemLen` bytes of the word in `stem`. -/
def analyzeWord (head : List SuffixNode) (word : Option CStr) : Output :=
  match word with
  | none => Output.emptyWord
  | some word =>
    if word.length = 0 then Output.emptyWord
    else
      match findMatchingSuffix head word with
      | none => Output.noSuffix word
      | some (_, node) =>
        let wordLen := strlen word
        let sufLen := strlen node.suffix
        let stemLen := wordLen - sufLen
        if stemLen ≤ 0 then
          Output.report word noStem node.suffix node.category
        else
          Output.report word (word.take stemLen.toNat) node.suffix node.category

/-! ## The registry built by `main` -/

/-- The list `main` builds before its menu loop: twelve `insertSuffix` calls
on the empty list. -/
def seedRegistry : List SuffixNode :=
  let head : List SuffixNode := []
  let head := insertSuffix head "ah".toList "Nominative singular masculine (e.g. 'Ramah')".toList
  let head := insertSuffix head "am".toList "Accusative singular / neuter nominative".toList
  let head := insertSuffix head "ena".toList "Instrumental singular (e.g. 'ramena')".toList
  let head := insertSuffix head "asya".toList "Genitive singular (e.g. 'devasya')".toList
  let head := insertSuffix head "e".toList "Locative singular / vocative variation".toList
  let head := insertSuffix head "esu".toList "Locative plural (e.g. 'vanesu')".toList
  let head := insertSuffix head "bhih".toList "Instrumental plural".toList
  let head := insertSuffix head "su".toList "Locative plural (alternative)".toList
  let head := insertSuffix head "tva".toList "Abstract noun forming suffix (e.g. 'satyatva')".toList
  let head := insertSuffix head "ka".toList "Diminutive / derivative suffix".toList
  let head := insertSuffix head "ta".toList "Past participle / abstract noun suffix".toList
  let head := insertSuffix head "yah".toList "Future passive participle or derivative ending".toList
  head

/-! ## Loop state of `findMatchingSuffix` -/

/-- The value of the variable `bestLen` when the loop of `findMatchingSuffix`
ends, started at the given value. -/
def findMatchingSuffixLen (word : CStr) : List SuffixNode → Int → Int
  | [], bestLen => bestLen
  | node :: next, bestLen =>
    if hasSuffix word node.suffix then
      let currentLen := strlen node.suffix
      if currentLen > bestLen then
        findMatchingSuffixLen word next currentLen
      else
        findMatchingSuffixLen word next bestLen
    else
      findMatchingSuffixLen word next bestLen

/-- The length of the suffix of the node a pointer refers to, 0 for `NULL`:
the value `bestLen` holds next to `bestMatch`. -/
def matchLen : Option NodePtr → Int
  | none => 0
  | some (_, node) => strlen node.suffix

/-! ## The menu loop of `main` -/

/-- A menu choice of `main` that reaches the registry, with the contents of
the buffers read for it: choice 1, choice 2 with `word`, choice 3 with
`suffixInput` and `categoryInput`. -/
inductive Command where
  | showAll
  | analyze (word : CStr)
  | add (suffixInput categoryInput : CStr)
deriving DecidableEq

/-- What one pass through the `switch` of `main` prints. -/
inductive Printed where
  /-- The rows of `displaySuffixes`. -/
  | rows (rows : List (Nat × CStr × CStr))
  /-- The output of `analyzeWord`. -/
  | analysis (out : Output)
  /-- `Suffix added successfully.` -/
  | added
deriving DecidableEq

/-- One pass through the `switch` of `main`: the variable `head` after the
pass and what was printed. `displaySuffixes` and `analyzeWord` receive `head`
by value and assign to no node; `insertSuffix` receives `&head`. -/
def mainStep (head : List SuffixNode) : Command → List SuffixNode × Printed
  | Command.showAll => (head, Printed.rows (displaySuffixes head))
  | Command.analyze word => (head, Printed.analysis (analyzeWord head (some word)))
  | Command.add suffixInput categoryInput =>
    (insertSuffix head suffixInput categoryInput, Printed.added)

/-- The `while (1)` loop of `main` run over a sequence of choices: the final
`head` and everything printed. -/
def mainLoop : List SuffixNode → List Command → List SuffixNode × List Printed
  | head, [] => (head, [])
  | head, c :: cs =>
    ((mainLoop (mainStep head c).1 cs).1,
      (mainStep head c).2 :: (mainLoop (mainStep head c).1 cs).2)

/-! ## The list in memory

The functions once more, this time on the memory that holds the nodes: every
function takes the memory and returns the memory it leaves behind. A loop that
follows `next` pointers takes a bound `fuel` on the number of nodes it visits;
the results below hold for every bound larger than the length of the list. -/

/-- A `struct SuffixNode` as it lies in memory: the two buffers and the `next`
pointer, an address or `none` for `NULL`. -/
structure Cell where
  suffix : CStr
  category : CStr
  next : Option Nat
deriving DecidableEq

/-- The nodes allocated so far: the node at address `a` is `heap[a]`. -/
abbrev Heap := List Cell

/-- The entry a node holds. -/
def Cell.entry (cell : Cell) : SuffixNode :=
  { suffix := cell.suffix, category := cell.category }

/-- From the pointer `p` on, the memory holds a `NULL`-terminated chain of
nodes whose entries are those of the list, in order. -/
def isList (heap : Heap) : Option Nat → List SuffixNode → Bool
  | none, [] => true
  | none, _ :: _ => false
  | some _, [] => false
  | some a, n :: rest =>
    match heap[a]? with
    | none => false
    | some cell => cell.entry == n && isList heap cell.next rest

/-- `createNode` on memory: `malloc` returns the next free address, the node
there gets the two bounded copies and `next = NULL`. -/
def createNodeMem (heap : Heap) (suffix category : CStr) : Heap × Nat :=
  (heap ++ [{ suffix := suffix.take (MAX_SUFFIX_LEN - 1)
              category := category.take (MAX_TYPE_LEN - 1)
              next := none }], heap.length)

/-- The loop `while (temp->next != NULL) temp = temp->next` of `insertSuffix`:
the address `temp` ends at. -/
def lastNodeMem : Nat → Heap → Nat → Nat
  | 0, _, temp => temp
  | fuel + 1, heap, temp =>
    match heap[temp]? with
    | none => temp
    | some cell =>
      match cell.next with
      | none => temp
      | some next => lastNodeMem fuel heap next

/-- `insertSuffix` on memory: the memory and the variable `head` of the caller
after the call. The store `temp->next = newNode` changes the last node. -/
def insertSuffixMem (fuel : Nat) (heap : Heap) (head : Option Nat)
    (suffix category : CStr) : Heap × Option Nat :=
  let (heap, newNode) := createNodeMem heap suffix category
  match head with
  | none => (heap, some newNode)
  | some first =>
    let temp := lastNodeMem fuel heap first
    match heap[temp]? with
    | none => (heap, head)
    | some cell => (heap.set temp { cell with next := some newNode }, head)

/-- The loop of `displaySuffixes` on memory. -/
def displayLoopMem : Nat → Heap → Option Nat → Nat → Heap × List (Nat × CStr × CStr)
  | 0, heap, _, _ => (heap, [])
  | _ + 1, heap, none, _ => (heap, [])
  | fuel + 1, heap, some a, index =>
    match heap[a]? with
    | none => (heap, [])
    | some cell =>
      let (heap, rows) := displayLoopMem fuel heap cell.next (index + 1)
      (heap, (index, cell.suffix, cell.category) :: rows)

/-- `displaySuffixes` on memory: the memory after the call and the rows
printed. -/
def displaySuffixesMem (fuel : Nat) (heap : Heap) (head : Option Nat) :
    Heap × List (Nat × CStr × CStr) :=
  displayLoopMem fuel heap head 1

/-- The loop of `findMatchingSuffix` on memory: `head->suffix` and
`head->next` are read from the node at the address `head`, `bestMatch` is an
address. -/
def findMatchingSuffixLoopMem (word : CStr) :
    Nat → Heap → Option Nat → Option Nat → Int → Heap × Option Nat
  | 0, heap, _, bestMatch, _ => (heap, bestMatch)
  | _ + 1, heap, none, bestMatch, _ => (heap, bestMatch)
  | fuel + 1, heap, some a, bestMatch, bestLen =>
    match heap[a]? with
    | none => (heap, bestMatch)
    | some cell =>
      if hasSuffix word cell.suffix then
        let currentLen := strlen cell.suffix
        if currentLen > bestLen then
          findMatchingSuffixLoopMem word fuel heap cell.next (some a) currentLen
        else
          findMatchingSuffixLoopMem word fuel heap cell.next bestMatch bestLen
      else
        findMatchingSuffixLoopMem word fuel heap cell.next bestMatch bestLen

/-- `findMatchingSuffix` on memory: the memory after the call and the pointer
returned. -/
def findMatchingSuffixMem (fuel : Nat) (heap : Heap) (head : Option Nat) (word : CStr) :
    Heap × Option Nat :=
  findMatchingSuffixLoopMem word fuel heap head none 0

/-- `analyzeWord` on memory: the memory after the call and what is printed;
`match->suffix` and `match->category` are read from the node returned. -/
def analyzeWordMem (fuel : Nat) (heap : Heap) (head : Option Nat) (word : Option CStr) :
    Heap × Output :=
  match word with
  | none => (heap, Output.emptyWord)
  | some word =>
    if word.length = 0 then (heap, Output.emptyWord)
    else
      let (heap, found) := findMatchingSuffixMem fuel heap head word
      match found.bind (fun a => heap[a]?) with
      | none => (heap, Output.noSuffix word)
      | some cell =>
        let wordLen := strlen word
        let sufLen := strlen cell.suffix
        let stemLen := wordLen - sufLen
        if stemLen ≤ 0 then
          (heap, Output.report word noStem cell.suffix cell.category)
        else
          (heap, Output.report word (word.take stemLen.toNat) cell.suffix cell.category)

/-- The pointer `p` into memory and the pointer `r` into the list of entries
refer to the same entry: both are `NULL`, or `p` is the address of a node that
holds the entry of `r`. -/
def pointsTo (heap : Heap) (p : Option Nat) (r : Option NodePtr) : Prop :=
  (p = none ∧ r = none) ∨
    ∃ a cell i, p = some a ∧ heap[a]? = some cell ∧ r = some (i, cell.entry)

/-- The memory and the variable `head` of `main` after its twelve
`insertSuffix` calls. -/
def seedMemory : Heap × Option Nat :=
  let state : Heap × Option Nat := ([], none)
  let seed (state : Heap × Option Nat) (suffix category : String) : Heap × Option Nat :=
    insertSuffixMem state.1.length state.1 state.2 suffix.toList category.toList
  let state := seed state "ah" "Nominative singular masculine (e.g. 'Ramah')"
  let state := seed state "am" "Accusative singular / neuter nominative"
  let state := seed state "ena" "Instrumental singular (e.g. 'ramena')"
  let state := seed state "asya" "Genitive singular (e.g. 'devasya')"
  let state := seed state "e" "Locative singular / vocative variation"
  let state := seed state "esu" "Locative plural (e.g. 'vanesu')"
  let state := seed state "bhih" "Instrumental plural"
  let state := seed state "su" "Locative plural (alternative)"
  let state := seed state "tva" "Abstract noun forming suffix (e.g. 'satyatva')"
  let state := seed state "ka" "Diminutive / derivative suffix"
  let state := seed state "ta" "Past participle / abstract noun suffix"
  let state := seed state "yah" "Future passive participle or derivative ending"
  state

/-! ## Lemmas on the string functions -/

theorem strcmp_eq_zero_iff (a b : CStr) : strcmp a b = 0 ↔ a = b := by
  induction a generalizing b with
  | nil => cases b <;> simp [strcmp]
  | cons x xs ih =>
    cases b with
    | nil => simp [strcmp]
    | cons y ys =>
      by_cases hxy : x = y
      · simp [strcmp, hxy, ih]
      · by_cases hlt : x.toNat < y.toNat <;> simp [strcmp, hxy, hlt]

theorem hasSuffix_iff_drop (word suffix : CStr) :
    hasSuffix word suffix = true ↔
      suffix.length ≤ word.length ∧
        word.drop (word.length - suffix.length) = suffix := by
  unfold hasSuffix strlen
  by_cases h : (suffix.length : Int) > (word.length : Int)
  · have h2 : ¬ suffix.length ≤ word.length := by omega
    simp [h, h2]
  · have h2 : suffix.length ≤ word.length := by omega
    have h3 : ((word.length : Int) - (suffix.length : Int)).toNat =
        word.length - suffix.length := by omega
    simp [h, h2, h3, strcmp_eq_zero_iff]

theorem hasSuffix_iff_append (word suffix : CStr) :
    hasSuffix word suffix = true ↔ ∃ p : CStr, word = p ++ suffix := by
  rw [hasSuffix_iff_drop]
  constructor
  · rintro ⟨_, hd⟩
    refine ⟨word.take (word.length - suffix.length), ?_⟩
    conv_lhs => rw [← List.take_append_drop (word.length - suffix.length) word]
    rw [hd]
  · rintro ⟨p, rfl⟩
    simp

/-! ## The loop of `findMatchingSuffix` -/

/-- One iteration that takes the node as the new best match. -/
theorem findMatchingSuffixLoop_take (word : CStr) (n : SuffixNode)
    (rest : List SuffixNode) (pos : Nat) (best : Option NodePtr) (bestLen : Int)
    (hm : hasSuffix word n.suffix = true) (hgt : strlen n.suffix > bestLen) :
    findMatchingSuffixLoop word (n :: rest) pos best bestLen =
      findMatchingSuffixLoop word rest (pos + 1) (some (pos, n)) (strlen n.suffix) := by
  simp [findMatchingSuffixLoop, hm, hgt]

/-- One iteration that leaves the loop state as it is. -/
theorem findMatchingSuffixLoop_skip (word : CStr) (n : SuffixNode)
    (rest : List SuffixNode) (pos : Nat) (best : Option NodePtr) (bestLen : Int)
    (h : hasSuffix word n.suffix = true → strlen n.suffix ≤ bestLen) :
    findMatchingSuffixLoop word (n :: rest) pos best bestLen =
      findMatchingSuffixLoop word rest (pos + 1) best bestLen := by
  by_cases hm : hasSuffix word n.suffix = true
  · have hle : ¬ strlen n.suffix > bestLen := not_lt.mpr (h hm)
    simp [findMatchingSuffixLoop, hm, hle]
  · simp [findMatchingSuffixLoop, hm]

/-- What the loop returns: either the incoming best match, when no matching
node is longer than `bestLen`, or the first node among the matching nodes of
greatest length, that length exceeding `bestLen`. -/
theorem findMatchingSuffixLoop_cases (word : CStr) (l : List SuffixNode) (pos : Nat)
    (best : Option NodePtr) (bestLen : Int) :
    (findMatchingSuffixLoop word l pos best bestLen = best ∧
        ∀ e ∈ l, hasSuffix word e.suffix = true → strlen e.suffix ≤ bestLen) ∨
    (∃ i e, findMatchingSuffixLoop word l pos best bestLen = some (pos + i, e) ∧
        l[i]? = some e ∧ hasSuffix word e.suffix = true ∧ bestLen < strlen e.suffix ∧
        (∀ e' ∈ l, hasSuffix word e'.suffix = true →
          strlen e'.suffix ≤ strlen e.suffix) ∧
        (∀ j e', j < i → l[j]? = some e' → hasSuffix word e'.suffix = true →
          strlen e'.suffix < strlen e.suffix)) := by
  induction l generalizing pos best bestLen with
  | nil => left; simp [findMatchingSuffixLoop]
  | cons n rest ih =>
    by_cases htake : hasSuffix word n.suffix = true ∧ strlen n.suffix > bestLen
    · obtain ⟨hm, hgt⟩ := htake
      rw [findMatchingSuffixLoop_take word n rest pos best bestLen hm hgt]
      rcases ih (pos + 1) (some (pos, n)) (strlen n.suffix) with
        ⟨hr, hall⟩ | ⟨i, e, hr, hi, hme, hlt, hmax, hfirst⟩
      · right
        refine ⟨0, n, by rw [hr]; rfl, by simp, hm, hgt, ?_, ?_⟩
        · intro e' he' hme'
          rcases List.mem_cons.1 he' with rfl | h
          · exact le_refl _
          · exact hall e' h hme'
        · intro j e' hj
          omega
      · right
        refine ⟨i + 1, e, ?_, by simpa using hi, hme, by omega, ?_, ?_⟩
        · rw [hr, Nat.add_assoc, Nat.add_comm 1 i]
        · intro e' he' hme'
          rcases List.mem_cons.1 he' with rfl | h
          · omega
          · exact hmax e' h hme'
        · intro j e' hj hje hme'
          cases j with
          | zero =>
            simp at hje
            subst hje
            exact hlt
          | succ j =>
            simp at hje
            exact hfirst j e' (by omega) hje hme'
    · have hn : hasSuffix word n.suffix = true → strlen n.suffix ≤ bestLen := by
        intro hm
        by_contra hc
        exact htake ⟨hm, not_le.mp hc⟩
      rw [findMatchingSuffixLoop_skip word n rest pos best bestLen hn]
      rcases ih (pos + 1) best bestLen with
        ⟨hr, hall⟩ | ⟨i, e, hr, hi, hme, hlt, hmax, hfirst⟩
      · left
        refine ⟨hr, ?_⟩
        intro e' he' hme'
        rcases List.mem_cons.1 he' with rfl | h
        · exact hn hme'
        · exact hall e' h hme'
      · right
        refine ⟨i + 1, e, ?_, by simpa using hi, hme, hlt, ?_, ?_⟩
        · rw [hr, Nat.add_assoc, Nat.add_comm 1 i]
        · intro e' he' hme'
          rcases List.mem_cons.1 he' with rfl | h
          · have := hn hme'
            omega
          · exact hmax e' h hme'
        · intro j e' hj hje hme'
          cases j with
          | zero =>
            simp at hje
            subst hje
            have := hn hme'
            omega
          | succ j =>
            simp at hje
            exact hfirst j e' (by omega) hje hme'

/-- What `findMatchingSuffix` returns: nothing, when every matching node has
an empty suffix, or the first node among the matching nodes of greatest
length, that length being positive. -/
theorem findMatchingSuffix_cases (R : List SuffixNode) (word : CStr) :
    (findMatchingSuffix R word = none ∧
        ∀ e ∈ R, hasSuffix word e.suffix = true → e.suffix.length = 0) ∨
    (∃ i e, findMatchingSuffix R word = some (i, e) ∧
        R[i]? = some e ∧ hasSuffix word e.suffix = true ∧ 0 < e.suffix.length ∧
        (∀ e' ∈ R, hasSuffix word e'.suffix = true →
          e'.suffix.length ≤ e.suffix.length) ∧
        (∀ j e', j < i → R[j]? = some e' → hasSuffix word e'.suffix = true →
          e'.suffix.length < e.suffix.length)) := by
  unfold findMatchingSuffix
  rcases findMatchingSuffixLoop_cases word R 0 none 0 with
    ⟨hr, hall⟩ | ⟨i, e, hr, hi, hme, hlt, hmax, hfirst⟩
  · left
    refine ⟨hr, ?_⟩
    intro e he hme
    have := hall e he hme
    unfold strlen at this
    omega
  · right
    refine ⟨i, e, by simpa using hr, hi, hme, ?_, ?_, ?_⟩
    · unfold strlen at hlt
      omega
    · intro e' he' hme'
      have := hmax e' he' hme'
      unfold strlen at this
      omega
    · intro j e' hj hje hme'
      have := hfirst j e' hj hje hme'
      unfold strlen at this
      omega

/-! ## Longest match, tie-break and the no-match outcome -/

/-- C1: when `findMatchingSuffix` returns an entry, that entry is a node of
the registry, its suffix is a trailing substring of the word (`hasSuffix`
holds, that is the word is some prefix followed by the suffix), and no entry
of the registry whose suffix matches the word has a strictly longer suffix. -/
theorem findMatchingSuffix_longest (R : List SuffixNode) (w : CStr) (i : Nat)
    (e : SuffixNode) (h : findMatchingSuffix R w = some (i, e)) :
    R[i]? = some e ∧ hasSuffix w e.suffix = true ∧ (∃ p : CStr, w = p ++ e.suffix) ∧
      ∀ e' ∈ R, hasSuffix w e'.suffix = true → ¬ e.suffix.length < e'.suffix.length := by
  rcases findMatchingSuffix_cases R w with
    ⟨hr, _⟩ | ⟨i', e', hr, hi, hme, _, hmax, _⟩
  · rw [hr] at h
    exact absurd h (by simp)
  · rw [hr] at h
    obtain ⟨rfl, rfl⟩ := Prod.mk.inj (Option.some.inj h)
    refine ⟨hi, hme, (hasSuffix_iff_append w _).1 hme, ?_⟩
    intro e'' he'' hme''
    exact not_lt.mpr (hmax e'' he'' hme'')

/-- C1 at the seed registry and the word "vanesu": the entry returned is the
sixth one, "esu", longer than the matching "su". -/
theorem findMatchingSuffix_longest_witness :
    findMatchingSuffix seedRegistry "vanesu".toList =
        some (5, ⟨"esu".toList, "Locative plural (e.g. 'vanesu')".toList⟩) ∧
      (seedRegistry[5]? = some ⟨"esu".toList, "Locative plural (e.g. 'vanesu')".toList⟩ ∧
        hasSuffix "vanesu".toList "esu".toList = true ∧
        (∃ p : CStr, "vanesu".toList = p ++ "esu".toList) ∧
        ∀ e' ∈ seedRegistry, hasSuffix "vanesu".toList e'.suffix = true →
          ¬ "esu".toList.length < e'.suffix.length) :=
  ⟨by decide,
    findMatchingSuffix_longest seedRegistry "vanesu".toList 5
      ⟨"esu".toList, "Locative plural (e.g. 'vanesu')".toList⟩ (by decide)⟩

/-- C2 fails as stated: in a registry of two entries that both hold the empty
suffix, both suffixes match the word "x" with the equal length 0 and no
matching suffix is longer, yet `findMatchingSuffix` returns no entry instead of
the one inserted first, and `analyzeWord` reports no category at all. -/
theorem findMatchingSuffix_tie_counterexample :
    (∀ e ∈ [(⟨[], "first".toList⟩ : SuffixNode), ⟨[], "second".toList⟩],
        hasSuffix "x".toList e.suffix = true ∧ e.suffix.length = 0) ∧
      findMatchingSuffix [⟨[], "first".toList⟩, ⟨[], "second".toList⟩] "x".toList = none ∧
      analyzeWord [⟨[], "first".toList⟩, ⟨[], "second".toList⟩] (some "x".toList) =
        Output.noSuffix "x".toList := by
  decide

/-- C2, amended: an entry at position `i` whose non-empty suffix matches the
word, such that no matching suffix of the registry is longer and every
matching entry of the same length sits at position `i` or later, is the entry
`findMatchingSuffix` returns. Among entries of equal greatest matching length,
duplicates included, the one inserted first wins. -/
theorem findMatchingSuffix_first_of_longest (R : List SuffixNode) (w : CStr) (i : Nat)
    (e : SuffixNode) (hi : R[i]? = some e) (hm : hasSuffix w e.suffix = true)
    (hne : e.suffix ≠ [])
    (hmax : ∀ e' ∈ R, hasSuffix w e'.suffix = true → e'.suffix.length ≤ e.suffix.length)
    (hfirst : ∀ j e', R[j]? = some e' → hasSuffix w e'.suffix = true →
      e'.suffix.length = e.suffix.length → i ≤ j) :
    findMatchingSuffix R w = some (i, e) := by
  have hpos : 0 < e.suffix.length := List.length_pos.mpr hne
  have hmem : e ∈ R := List.getElem?_mem hi
  rcases findMatchingSuffix_cases R w with
    ⟨_, hall⟩ | ⟨k, b, hr, hk, hmb, _, hbmax, hbfirst⟩
  · have := hall e hmem hm
    omega
  · have hbmem : b ∈ R := List.getElem?_mem hk
    have hle1 : e.suffix.length ≤ b.suffix.length := hbmax e hmem hm
    have hle2 : b.suffix.length ≤ e.suffix.length := hmax b hbmem hmb
    have hik : i ≤ k := hfirst k b hk hmb (by omega)
    have hki : ¬ i < k := by
      intro hlt
      have := hbfirst i e hlt hi hm
      omega
    have hkeq : k = i := by omega
    subst hkeq
    rw [hk] at hi
    rw [hr, Option.some.inj hi]

/-- C2 at a registry holding the suffix "ah" twice: for "Ramah" the entry
inserted first, with its category, is returned. -/
theorem findMatchingSuffix_first_of_longest_witness :
    findMatchingSuffix
        [⟨"am".toList, "zero".toList⟩, ⟨"ah".toList, "one".toList⟩,
          ⟨"ah".toList, "two".toList⟩]
        "Ramah".toList = some (1, ⟨"ah".toList, "one".toList⟩) :=
  findMatchingSuffix_first_of_longest
    [⟨"am".toList, "zero".toList⟩, ⟨"ah".toList, "one".toList⟩,
      ⟨"ah".toList, "two".toList⟩]
    "Ramah".toList 1 ⟨"ah".toList, "one".toList⟩
    (by decide) (by decide) (by decide) (by decide)
    (by
      intro j e' hj hm' _
      rcases j with _ | j
      · simp at hj
        subst hj
        exact absurd hm' (by decide)
      · omega)

/-! ## `hasSuffix` -/

theorem toInt32_of_lt (n : Nat) (h : n < 2 ^ 31) : toInt32 n = (n : Int) := by
  unfold toInt32
  omega

theorem hasSuffixInt32_eq_hasSuffix (word suffix : CStr) (hw : word.length < 2 ^ 31)
    (hs : suffix.length < 2 ^ 31) : hasSuffixInt32 word suffix = hasSuffix word suffix := by
  unfold hasSuffixInt32 hasSuffix strlen
  rw [toInt32_of_lt _ hw, toInt32_of_lt _ hs]

theorem hasSuffixInt32_of_gt (word suffix : CStr)
    (h : toInt32 suffix.length > toInt32 word.length) :
    hasSuffixInt32 word suffix = false := by
  unfold hasSuffixInt32
  simp only [h, if_true]

/-- C3 fails as stated: the word made of 2^31 bytes `x` followed by "ah" ends
in "ah", which is not longer than the word, but the length 2^31 + 2 of the word
becomes the negative `int` 2 - 2^31, the test `ls > lw` succeeds and `hasSuffix`
returns 0. -/
theorem hasSuffixInt32_long_word_counterexample :
    (∃ p : CStr, List.replicate (2 ^ 31) 'x' ++ "ah".toList = p ++ "ah".toList) ∧
      "ah".toList.length ≤ (List.replicate (2 ^ 31) 'x' ++ "ah".toList).length ∧
      hasSuffixInt32 (List.replicate (2 ^ 31) 'x' ++ "ah".toList) "ah".toList = false := by
  refine ⟨⟨_, rfl⟩, ?_, ?_⟩
  · rw [List.length_append, List.length_replicate]
    exact Nat.le_add_left _ _
  · apply hasSuffixInt32_of_gt
    rw [List.length_append, List.length_replicate]
    decide

/-- C3, amended: for a word and a candidate of fewer than 2^31 bytes each (the
lengths an `int` holds), `hasSuffix(word, candidate)` is true exactly when the
candidate is not longer than the word and the last `len(candidate)` bytes of
the word equal the candidate, equivalently when the word is some prefix
followed by the candidate; a candidate longer than the word never matches, and
a word ending in bytes that are not exactly those of the candidate (for
instance in another letter case) does not match. -/
theorem hasSuffixInt32_iff_trailing (word candidate : CStr)
    (hw : word.length < 2 ^ 31) (hc : candidate.length < 2 ^ 31) :
    (hasSuffixInt32 word candidate = true ↔
      candidate.length ≤ word.length ∧
        word.drop (word.length - candidate.length) = candidate) ∧
    (hasSuffixInt32 word candidate = true ↔ ∃ p : CStr, word = p ++ candidate) ∧
    (word.length < candidate.length → hasSuffixInt32 word candidate = false) ∧
    (∀ tail p : CStr, word = p ++ tail → tail.length = candidate.length →
      tail ≠ candidate → hasSuffixInt32 word candidate = false) := by
  rw [hasSuffixInt32_eq_hasSuffix word candidate hw hc]
  refine ⟨hasSuffix_iff_drop word candidate, hasSuffix_iff_append word candidate, ?_, ?_⟩
  · intro hlt
    rw [Bool.eq_false_iff]
    intro h
    have := ((hasSuffix_iff_drop word candidate).1 h).1
    omega
  · intro tail p hword hlen hne
    rw [Bool.eq_false_iff]
    intro h
    have hd := ((hasSuffix_iff_drop word candidate).1 h).2
    apply hne
    rw [← hd, hword, List.length_append, hlen, Nat.add_sub_cancel]
    simp

/-- C3, amended, at concrete strings: "ah" ends "Ramah", the longer "Ramah"
does not end "ah", and the upper-case "AH" at the end of "RamAH" is not
matched by "ah". -/
theorem hasSuffixInt32_iff_trailing_witness :
    hasSuffixInt32 "Ramah".toList "ah".toList = true ∧
      hasSuffixInt32 "ah".toList "Ramah".toList = false ∧
      hasSuffixInt32 "RamAH".toList "ah".toList = false :=
  ⟨(hasSuffixInt32_iff_trailing "Ramah".toList "ah".toList (by decide) (by decide)).1.2
      ⟨by decide, by decide⟩,
    (hasSuffixInt32_iff_trailing "ah".toList "Ramah".toList (by decide) (by decide)).2.2.1
      (by decide),
    (hasSuffixInt32_iff_trailing "RamAH".toList "ah".toList (by decide) (by decide)).2.2.2
      "AH".toList "Ram".toList (by decide) (by decide) (by decide)⟩

/-- C4 fails as stated: the empty candidate matches the empty word, since
`hasSuffix("", "")` compares two empty strings and returns 1. -/
theorem hasSuffix_empty_word_counterexample :
    hasSuffix ([] : CStr) ([] : CStr) = true ∧
      ¬ ∀ c : CStr, hasSuffix [] c = false :=
  ⟨by decide, fun h => absurd (h []) (by decide)⟩

/-- C4, amended: the empty word matches no candidate other than the empty
string: for every non-empty candidate `c`, `hasSuffix("", c)` is false. -/
theorem hasSuffix_empty_word (c : CStr) (hc : c ≠ []) : hasSuffix [] c = false := by
  rw [Bool.eq_false_iff]
  intro h
  have hle : c.length ≤ 0 := ((hasSuffix_iff_drop [] c).1 h).1
  exact hc (List.length_eq_zero.mp (Nat.le_zero.mp hle))

/-- C4, amended, at the candidate "ah". -/
theorem hasSuffix_empty_word_witness : hasSuffix [] "ah".toList = false :=
  hasSuffix_empty_word "ah".toList (by decide)

/-! ## The no-match outcome -/

/-- C5 fails as stated: the registry whose only entry has the empty suffix
holds an entry whose suffix satisfies `hasSuffix` for the word "a", and
`findMatchingSuffix` still returns no match. -/
theorem findMatchingSuffix_none_counterexample :
    (∃ e ∈ [(⟨[], "bare stem".toList⟩ : SuffixNode)],
        hasSuffix "a".toList e.suffix = true) ∧
      findMatchingSuffix [⟨[], "bare stem".toList⟩] "a".toList = none := by
  decide

/-- C5, amended: `findMatchingSuffix` returns no match exactly when no entry
of the registry with a non-empty suffix satisfies `hasSuffix`; whenever at
least one entry with a non-empty suffix qualifies, an entry is returned. -/
theorem findMatchingSuffix_eq_none_iff (R : List SuffixNode) (w : CStr) :
    (findMatchingSuffix R w = none ↔
      ∀ e ∈ R, hasSuffix w e.suffix = true → e.suffix = []) ∧
    ((∃ e ∈ R, hasSuffix w e.suffix = true ∧ e.suffix ≠ []) →
      ∃ i e, findMatchingSuffix R w = some (i, e)) := by
  have key : findMatchingSuffix R w = none ↔
      ∀ e ∈ R, hasSuffix w e.suffix = true → e.suffix = [] := by
    rcases findMatchingSuffix_cases R w with
      ⟨hr, hall⟩ | ⟨i, e, hr, hi, hme, hpos, _, _⟩
    · constructor
      · intro _ e he hme
        exact List.length_eq_zero.mp (hall e he hme)
      · intro _
        exact hr
    · constructor
      · intro hnone
        rw [hr] at hnone
        exact absurd hnone (by simp)
      · intro hall
        have := hall e (List.getElem?_mem hi) hme
        rw [this] at hpos
        simp at hpos
  refine ⟨key, ?_⟩
  rintro ⟨e, he, hme, hne⟩
  cases hres : findMatchingSuffix R w with
  | none => exact absurd (key.1 hres e he hme) hne
  | some r => exact ⟨r.1, r.2, rfl⟩

/-- C5, amended, at the seed registry: "xyz" matches no seed suffix and gets no
match, "Ramah" matches the non-empty "ah" and gets an entry. -/
theorem findMatchingSuffix_eq_none_iff_witness :
    findMatchingSuffix seedRegistry "xyz".toList = none ∧
      ∃ i e, findMatchingSuffix seedRegistry "Ramah".toList = some (i, e) :=
  ⟨(findMatchingSuffix_eq_none_iff seedRegistry "xyz".toList).1.2 (by decide),
    (findMatchingSuffix_eq_none_iff seedRegistry "Ramah".toList).2
      ⟨⟨"ah".toList, "Nominative singular masculine (e.g. 'Ramah')".toList⟩,
        by decide, by decide, by decide⟩⟩

/-! ## Insertion -/

theorem insertSuffix_eq_append (R : List SuffixNode) (s c : CStr) :
    insertSuffix R s c = R ++ [createNode s c] := by
  induction R with
  | nil => rfl
  | cons n rest ih => simp [insertSuffix, ih]

theorem displayLoop_append (l₁ l₂ : List SuffixNode) (index : Nat) :
    displayLoop (l₁ ++ l₂) index =
      displayLoop l₁ index ++ displayLoop l₂ (index + l₁.length) := by
  induction l₁ generalizing index with
  | nil => simp [displayLoop]
  | cons n rest ih =>
    have hidx : index + 1 + rest.length = index + (rest.length + 1) := by omega
    rw [List.cons_append]
    simp only [displayLoop, List.cons_append, List.length_cons]
    rw [ih, hidx]

/-- C6 fails as stated: inserting a suffix of 26 bytes with the category "bar"
into the empty registry leaves a last entry that holds only the first 19
bytes of the suffix, not the inserted pair. -/
theorem insertSuffix_last_counterexample :
    displaySuffixes (insertSuffix [] "abcdefghijklmnopqrstuvwxyz".toList "bar".toList) =
        [(1, "abcdefghijklmnopqrs".toList, "bar".toList)] ∧
      displaySuffixes (insertSuffix [] "abcdefghijklmnopqrstuvwxyz".toList "bar".toList) ≠
        displaySuffixes [] ++ [(1, "abcdefghijklmnopqrstuvwxyz".toList, "bar".toList)] := by
  decide

/-- C6, amended: after `insertSuffix(R, suffix, category)` the registry is the
previous registry followed by exactly one entry, which holds the first 19
bytes of `suffix` and the first 79 bytes of `category`; the rows displayed are
the previous rows, unchanged and in their order, followed by the row of that
entry; and the entry is exactly the inserted pair when `suffix` has at most 19
bytes and `category` at most 79. -/
theorem insertSuffix_appends (R : List SuffixNode) (suffix category : CStr) :
    insertSuffix R suffix category =
        R ++ [⟨suffix.take 19, category.take 79⟩] ∧
      displaySuffixes (insertSuffix R suffix category) =
        displaySuffixes R ++ [(R.length + 1, suffix.take 19, category.take 79)] ∧
      (suffix.length ≤ 19 → category.length ≤ 79 →
        insertSuffix R suffix category = R ++ [⟨suffix, category⟩] ∧
          displaySuffixes (insertSuffix R suffix category) =
            displaySuffixes R ++ [(R.length + 1, suffix, category)]) := by
  have h1 : insertSuffix R suffix category =
      R ++ [⟨suffix.take 19, category.take 79⟩] := insertSuffix_eq_append R suffix category
  have h2 : displaySuffixes (insertSuffix R suffix category) =
      displaySuffixes R ++ [(R.length + 1, suffix.take 19, category.take 79)] := by
    rw [h1]
    unfold displaySuffixes
    rw [displayLoop_append, Nat.add_comm 1 R.length]
    rfl
  refine ⟨h1, h2, ?_⟩
  intro hs hc
  rw [h2, h1, List.take_of_length_le hs, List.take_of_length_le hc]
  exact ⟨rfl, rfl⟩

/-- C6, amended, at the seed registry and the pair ("foo", "bar"): the
thirteenth row is exactly that pair and the twelve seed rows stay in place. -/
theorem insertSuffix_appends_witness :
    insertSuffix seedRegistry "foo".toList "bar".toList =
        seedRegistry ++ [⟨"foo".toList, "bar".toList⟩] ∧
      displaySuffixes (insertSuffix seedRegistry "foo".toList "bar".toList) =
        displaySuffixes seedRegistry ++ [(seedRegistry.length + 1, "foo".toList, "bar".toList)] :=
  (insertSuffix_appends seedRegistry "foo".toList "bar".toList).2.2 (by decide) (by decide)

/-! ## `analyzeWord` -/

/-- C7: for a non-empty word `w` for which `findMatchingSuffix` returns an
entry `e` with `len(w) > len(e.suffix)`, `analyzeWord` reports the quadruple
`(w, stem, e.suffix, e.category)` where the stem is exactly the first
`len(w) - len(e.suffix)` bytes of `w`. -/
theorem analyzeWord_reports_stem (R : List SuffixNode) (w : CStr) (i : Nat)
    (e : SuffixNode) (hw : w ≠ []) (h : findMatchingSuffix R w = some (i, e))
    (hlen : e.suffix.length < w.length) :
    analyzeWord R (some w) =
      Output.report w (w.take (w.length - e.suffix.length)) e.suffix e.category := by
  have hw0 : w.length ≠ 0 := fun h0 => hw (List.length_eq_zero.mp h0)
  have h1 : ¬ ((w.length : Int) - (e.suffix.length : Int) ≤ 0) := by omega
  have h2 : ((w.length : Int) - (e.suffix.length : Int)).toNat =
      w.length - e.suffix.length := by omega
  simp only [analyzeWord, h, strlen, hw0, h1, h2, if_false]

/-- C7 at the seed registry and the word "devasya": the stem is the first
7 - 4 bytes, "dev". -/
theorem analyzeWord_reports_stem_witness :
    analyzeWord seedRegistry (some "devasya".toList) =
      Output.report "devasya".toList ("devasya".toList.take (7 - 4)) "asya".toList
        "Genitive singular (e.g. 'devasya')".toList :=
  analyzeWord_reports_stem seedRegistry "devasya".toList 3
    ⟨"asya".toList, "Genitive singular (e.g. 'devasya')".toList⟩
    (by decide) (by decide) (by decide)

/-- C8: for a non-empty word `w` whose best matching entry has `w` itself as
suffix, `analyzeWord` reports the stem "(no stem)" and the suffix `w`; so does
the analysis of "ena" against the seed registry. -/
theorem analyzeWord_whole_word (R : List SuffixNode) (w : CStr) (i : Nat)
    (e : SuffixNode) (hw : w ≠ []) (h : findMatchingSuffix R w = some (i, e))
    (hs : e.suffix = w) :
    analyzeWord R (some w) = Output.report w "(no stem)".toList w e.category ∧
      analyzeWord seedRegistry (some "ena".toList) =
        Output.report "ena".toList "(no stem)".toList "ena".toList
          "Instrumental singular (e.g. 'ramena')".toList := by
  have hw0 : w.length ≠ 0 := fun h0 => hw (List.length_eq_zero.mp h0)
  refine ⟨?_, by decide⟩
  simp only [analyzeWord, h, strlen, hw0, hs, sub_self, le_refl, if_false, if_true]
  rfl

/-- C8 at the registry holding the single entry "iti" and the word "iti". -/
theorem analyzeWord_whole_word_witness :
    analyzeWord [⟨"iti".toList, "quotative".toList⟩] (some "iti".toList) =
        Output.report "iti".toList "(no stem)".toList "iti".toList "quotative".toList ∧
      analyzeWord seedRegistry (some "ena".toList) =
        Output.report "ena".toList "(no stem)".toList "ena".toList
          "Instrumental singular (e.g. 'ramena')".toList :=
  analyzeWord_whole_word [⟨"iti".toList, "quotative".toList⟩] "iti".toList 0
    ⟨"iti".toList, "quotative".toList⟩ (by decide) (by decide) rfl

/-- C9: whatever the registry holds, `analyzeWord` on the empty word, and on
an absent one, prints the rejection "Empty word." (the same for every
registry: the list is not consulted), and on a non-empty word it never prints
that rejection. -/
theorem analyzeWord_empty_word (R : List SuffixNode) :
    analyzeWord R (some []) = Output.emptyWord ∧
      analyzeWord R none = Output.emptyWord ∧
      ∀ w : CStr, w ≠ [] → analyzeWord R (some w) ≠ Output.emptyWord := by
  refine ⟨rfl, rfl, ?_⟩
  intro w hw
  have hw0 : w.length ≠ 0 := fun h0 => hw (List.length_eq_zero.mp h0)
  cases hres : findMatchingSuffix R w with
  | none => simp [analyzeWord, hres, hw0]
  | some r =>
    obtain ⟨i, e⟩ := r
    simp only [analyzeWord, hres, hw0, if_false]
    split_ifs <;> simp

/-- C9 at the seed registry: the empty word is rejected, "Ramah" is not. -/
theorem analyzeWord_empty_word_witness :
    analyzeWord seedRegistry (some []) = Output.emptyWord ∧
      analyzeWord seedRegistry (some "Ramah".toList) ≠ Output.emptyWord :=
  ⟨(analyzeWord_empty_word seedRegistry).1,
    (analyzeWord_empty_word seedRegistry).2.2 "Ramah".toList (by decide)⟩

/-- C10: analyzing "Ramah" against the seed registry reports the stem "Ram",
the suffix "ah" and a category that contains "Nominative singular
masculine". -/
theorem analyzeWord_Ramah :
    ∃ category : CStr,
      analyzeWord seedRegistry (some "Ramah".toList) =
          Output.report "Ramah".toList "Ram".toList "ah".toList category ∧
        "Nominative singular masculine".toList <:+: category :=
  ⟨"Nominative singular masculine (e.g. 'Ramah')".toList, by decide,
    [], " (e.g. 'Ramah')".toList, by decide⟩

/-! ## The seed registry -/

/-- C11: analyzing "xyz" against the seed registry gives the no-match outcome:
none of the twelve seed suffixes is a trailing substring of "xyz". -/
theorem analyzeWord_xyz :
    analyzeWord seedRegistry (some "xyz".toList) = Output.noSuffix "xyz".toList ∧
      findMatchingSuffix seedRegistry "xyz".toList = none ∧
      seedRegistry.length = 12 ∧
      ∀ e ∈ seedRegistry, hasSuffix "xyz".toList e.suffix = false := by
  decide

/-- C12: the registry built at program start enumerates exactly twelve
entries, with the suffixes ah, am, ena, asya, e, esu, bhih, su, tva, ka, ta,
yah in this order, each with the category text of the seed table verbatim. -/
theorem seedRegistry_rows :
    seedRegistry.length = 12 ∧
      seedRegistry.map (fun e => e.suffix) =
        ["ah".toList, "am".toList, "ena".toList, "asya".toList, "e".toList, "esu".toList,
          "bhih".toList, "su".toList, "tva".toList, "ka".toList, "ta".toList, "yah".toList] ∧
      displaySuffixes seedRegistry =
        [(1, "ah".toList, "Nominative singular masculine (e.g. 'Ramah')".toList),
          (2, "am".toList, "Accusative singular / neuter nominative".toList),
          (3, "ena".toList, "Instrumental singular (e.g. 'ramena')".toList),
          (4, "asya".toList, "Genitive singular (e.g. 'devasya')".toList),
          (5, "e".toList, "Locative singular / vocative variation".toList),
          (6, "esu".toList, "Locative plural (e.g. 'vanesu')".toList),
          (7, "bhih".toList, "Instrumental plural".toList),
          (8, "su".toList, "Locative plural (alternative)".toList),
          (9, "tva".toList, "Abstract noun forming suffix (e.g. 'satyatva')".toList),
          (10, "ka".toList, "Diminutive / derivative suffix".toList),
          (11, "ta".toList, "Past participle / abstract noun suffix".toList),
          (12, "yah".toList, "Future passive participle or derivative ending".toList)] := by
  decide

/-! ## The analyzer only reads -/

theorem isList_nil (heap : Heap) (p : Option Nat) (h : isList heap p [] = true) :
    p = none := by
  cases p with
  | none => rfl
  | some a => simp [isList] at h

theorem isList_cons (heap : Heap) (p : Option Nat) (n : SuffixNode)
    (rest : List SuffixNode) (h : isList heap p (n :: rest) = true) :
    ∃ a cell, p = some a ∧ heap[a]? = some cell ∧ cell.entry = n ∧
      isList heap cell.next rest = true := by
  cases p with
  | none => simp [isList] at h
  | some a =>
    cases hc : heap[a]? with
    | none => simp [isList, hc] at h
    | some cell =>
      simp only [isList, hc, Bool.and_eq_true, beq_iff_eq] at h
      exact ⟨a, cell, rfl, hc, h.1, h.2⟩

theorem findMatchingSuffixLoopMem_heap (word : CStr) (fuel : Nat) (heap : Heap)
    (head best : Option Nat) (bestLen : Int) :
    (findMatchingSuffixLoopMem word fuel heap head best bestLen).1 = heap := by
  induction fuel generalizing head best bestLen with
  | zero => rfl
  | succ fuel ih =>
    cases head with
    | none => rfl
    | some a =>
      cases hc : heap[a]? with
      | none => simp [findMatchingSuffixLoopMem, hc]
      | some cell =>
        simp only [findMatchingSuffixLoopMem, hc]
        split_ifs <;> exact ih _ _ _

theorem displayLoopMem_heap (fuel : Nat) (heap : Heap) (head : Option Nat) (index : Nat) :
    (displayLoopMem fuel heap head index).1 = heap := by
  induction fuel generalizing head index with
  | zero => rfl
  | succ fuel ih =>
    cases head with
    | none => rfl
    | some a =>
      cases hc : heap[a]? with
      | none => simp [displayLoopMem, hc]
      | some cell =>
        simp only [displayLoopMem, hc]
        exact ih _ _

theorem findMatchingSuffixLoopMem_pointsTo (word : CStr) (heap : Heap)
    (l : List SuffixNode) (fuel : Nat) (p : Option Nat) (pos : Nat)
    (best : Option Nat) (bestList : Option NodePtr) (bestLen : Int)
    (hl : isList heap p l = true) (hfuel : l.length < fuel)
    (hbest : pointsTo heap best bestList) :
    pointsTo heap (findMatchingSuffixLoopMem word fuel heap p best bestLen).2
      (findMatchingSuffixLoop word l pos bestList bestLen) := by
  induction l generalizing fuel p pos best bestList bestLen with
  | nil =>
    have hp := isList_nil heap p hl
    subst hp
    cases fuel with
    | zero => exact absurd hfuel (by simp)
    | succ fuel => exact hbest
  | cons n rest ih =>
    obtain ⟨a, cell, hp, hc, hn, hrest⟩ := isList_cons heap p n rest hl
    subst hp
    cases fuel with
    | zero => exact absurd hfuel (by simp)
    | succ fuel =>
      have hfuel' : rest.length < fuel := by
        simp only [List.length_cons] at hfuel
        omega
      have hsuf : cell.suffix = n.suffix := by rw [← hn]; rfl
      simp only [findMatchingSuffixLoopMem, hc, findMatchingSuffixLoop, hsuf]
      split_ifs
      · exact ih fuel cell.next (pos + 1) (some a) (some (pos, n)) _ hrest hfuel'
          (Or.inr ⟨a, cell, pos, rfl, hc, by rw [hn]⟩)
      · exact ih fuel cell.next (pos + 1) best bestList bestLen hrest hfuel' hbest
      · exact ih fuel cell.next (pos + 1) best bestList bestLen hrest hfuel' hbest

theorem displayLoopMem_rows (heap : Heap) (l : List SuffixNode) (fuel : Nat)
    (p : Option Nat) (index : Nat) (hl : isList heap p l = true)
    (hfuel : l.length < fuel) :
    displayLoopMem fuel heap p index = (heap, displayLoop l index) := by
  induction l generalizing fuel p index with
  | nil =>
    have hp := isList_nil heap p hl
    subst hp
    cases fuel with
    | zero => exact absurd hfuel (by simp)
    | succ fuel => rfl
  | cons n rest ih =>
    obtain ⟨a, cell, hp, hc, hn, hrest⟩ := isList_cons heap p n rest hl
    subst hp
    cases fuel with
    | zero => exact absurd hfuel (by simp)
    | succ fuel =>
      have hfuel' : rest.length < fuel := by
        simp only [List.length_cons] at hfuel
        omega
      simp only [displayLoopMem, hc, displayLoop, ih fuel cell.next (index + 1) hrest hfuel']
      rw [← hn]
      rfl

theorem analyzeWordMem_output (heap : Heap) (R : List SuffixNode) (fuel : Nat)
    (head : Option Nat) (w : Option CStr) (hR : isList heap head R = true)
    (hfuel : R.length < fuel) :
    analyzeWordMem fuel heap head w = (heap, analyzeWord R w) := by
  cases w with
  | none => rfl
  | some word =>
    by_cases hw0 : word.length = 0
    · simp [analyzeWordMem, analyzeWord, hw0]
    · have hheap := findMatchingSuffixLoopMem_heap word fuel heap head none 0
      have hpt := findMatchingSuffixLoopMem_pointsTo word heap R fuel head 0 none none 0
        hR hfuel (Or.inl ⟨rfl, rfl⟩)
      cases hres : findMatchingSuffixLoopMem word fuel heap head none 0 with
      | mk heap' found =>
        rw [hres] at hheap hpt
        simp only at hheap hpt
        subst hheap
        rcases hpt with ⟨hf, hr⟩ | ⟨a, cell, i, hf, hc, hr⟩
        · simp only [analyzeWordMem, analyzeWord, findMatchingSuffixMem, findMatchingSuffix,
            hw0, if_false, hres, hf, hr, Option.bind]
        · simp only [analyzeWordMem, analyzeWord, findMatchingSuffixMem, findMatchingSuffix,
            hw0, if_false, hres, hf, hr, Option.bind, hc, Cell.entry]
          split_ifs <;> rfl

theorem getElem?_lt_length (heap : Heap) (a : Nat) (cell : Cell)
    (h : heap[a]? = some cell) : a < heap.length := by
  obtain ⟨hlt, _⟩ := List.getElem?_eq_some.mp h
  exact hlt

/-- Linking a new node behind the last node of a chain: the walk of
`insertSuffix` ends at the node whose `next` is `NULL`, and after the store the
chain holds one more entry. -/
theorem isList_link_last (heap : Heap) (newCell : Cell) (hnew : newCell.next = none)
    (l : List SuffixNode) (a : Nat) (fuel : Nat) (hne : l ≠ [])
    (hl : isList heap (some a) l = true) (hfuel : l.length ≤ fuel + 1) :
    ∃ lastCell, (heap ++ [newCell])[lastNodeMem fuel (heap ++ [newCell]) a]? = some lastCell ∧
      lastCell.next = none ∧
      lastNodeMem fuel (heap ++ [newCell]) a < heap.length ∧
      isList ((heap ++ [newCell]).set (lastNodeMem fuel (heap ++ [newCell]) a)
        { lastCell with next := some heap.length }) (some a) (l ++ [newCell.entry]) = true := by
  induction l generalizing a fuel with
  | nil => exact absurd rfl hne
  | cons n rest ih =>
    obtain ⟨a', cell, hp, hc, hn, hrest⟩ := isList_cons heap (some a) n rest hl
    obtain rfl : a = a' := Option.some.inj hp
    have ha : a < heap.length := getElem?_lt_length heap a cell hc
    have hc1 : (heap ++ [newCell])[a]? = some cell := by
      rw [List.getElem?_append_left ha]
      exact hc
    have hnewAt : (heap ++ [newCell])[heap.length]? = some newCell :=
      List.getElem?_concat_length heap newCell
    cases rest with
    | nil =>
      have hnext : cell.next = none := isList_nil heap cell.next hrest
      have hlast : lastNodeMem fuel (heap ++ [newCell]) a = a := by
        cases fuel with
        | zero => rfl
        | succ fuel => simp [lastNodeMem, hc1, hnext]
      rw [hlast]
      refine ⟨cell, hc1, hnext, ha, ?_⟩
      have hset : ((heap ++ [newCell]).set a { cell with next := some heap.length })[a]? =
          some { cell with next := some heap.length } := by
        apply List.getElem?_set_self
        rw [List.length_append]
        omega
      have hsetNew : ((heap ++ [newCell]).set a
          { cell with next := some heap.length })[heap.length]? = some newCell := by
        rw [List.getElem?_set_ne (by omega)]
        exact hnewAt
      have hentry : ({ cell with next := some heap.length } : Cell).entry = n := hn
      simp only [List.cons_append, List.nil_append, isList, hset, hsetNew, hentry, hnew,
        beq_self_eq_true, Bool.and_self]
    | cons m rest' =>
      obtain ⟨b, cellB, hpb, hcb, _, _⟩ := isList_cons heap cell.next m rest' hrest
      cases fuel with
      | zero =>
        simp only [List.length_cons] at hfuel
        omega
      | succ fuel =>
        have hfuel' : (m :: rest').length ≤ fuel + 1 := by
          simp only [List.length_cons] at hfuel ⊢
          omega
        have hrest' : isList heap (some b) (m :: rest') = true := by
          rw [← hpb]
          exact hrest
        obtain ⟨lastCell, hlc, hlnext, hllt, hchain⟩ := ih b fuel (by simp) hrest' hfuel'
        have hstep : lastNodeMem (fuel + 1) (heap ++ [newCell]) a =
            lastNodeMem fuel (heap ++ [newCell]) b := by
          simp [lastNodeMem, hc1, hpb]
        rw [hstep]
        refine ⟨lastCell, hlc, hlnext, hllt, ?_⟩
        have hne' : lastNodeMem fuel (heap ++ [newCell]) b ≠ a := by
          intro heq
          rw [heq, hc1] at hlc
          have hcell : cell = lastCell := Option.some.inj hlc
          rw [← hcell, hpb] at hlnext
          exact absurd hlnext (by simp)
        have hkeep : ((heap ++ [newCell]).set (lastNodeMem fuel (heap ++ [newCell]) b)
            { lastCell with next := some heap.length })[a]? = some cell := by
          rw [List.getElem?_set_ne hne']
          exact hc1
        simp only [List.cons_append, isList, hkeep, hn, beq_self_eq_true, Bool.true_and, hpb]
        exact hchain

/-- `insertSuffix` on memory refines `insertSuffix` on the list of entries:
from a memory that holds the entries `R`, the call leaves a memory that holds
`insertSuffix R suffix category`, one node larger. -/
theorem insertSuffixMem_isList (heap : Heap) (R : List SuffixNode) (fuel : Nat)
    (head : Option Nat) (suffix category : CStr) (hR : isList heap head R = true)
    (hfuel : R.length ≤ fuel) :
    isList (insertSuffixMem fuel heap head suffix category).1
        (insertSuffixMem fuel heap head suffix category).2
        (insertSuffix R suffix category) = true ∧
      (insertSuffixMem fuel heap head suffix category).1.length = heap.length + 1 := by
  rw [insertSuffix_eq_append]
  cases R with
  | nil =>
    have hp := isList_nil heap head hR
    subst hp
    have hnewAt := List.getElem?_concat_length heap
      ({ suffix := suffix.take (MAX_SUFFIX_LEN - 1)
         category := category.take (MAX_TYPE_LEN - 1)
         next := none } : Cell)
    constructor
    · simp only [insertSuffixMem, createNodeMem, List.nil_append, isList, hnewAt,
        Bool.and_true, beq_iff_eq]
      rfl
    · simp [insertSuffixMem, createNodeMem]
  | cons n rest =>
    obtain ⟨a, cell, hp, _, _, _⟩ := isList_cons heap head n rest hR
    subst hp
    obtain ⟨lastCell, hlc, _, _, hchain⟩ := isList_link_last heap
      ({ suffix := suffix.take (MAX_SUFFIX_LEN - 1)
         category := category.take (MAX_TYPE_LEN - 1)
         next := none } : Cell) rfl (n :: rest) a fuel (by simp) hR (by omega)
    constructor
    · simp only [insertSuffixMem, createNodeMem, hlc]
      exact hchain
    · simp [insertSuffixMem, createNodeMem, hlc]

/-- C13: the analyzer is read-only. On a memory that holds the registry `R` as
a list from `head`, `findMatchingSuffix` and `analyzeWord` come to the result
they have on the entries of `R` and leave the memory, every node of it, as it
was, and so does `displaySuffixes`; the memory still holds `R` after an
analysis, the rows displayed after an analysis are the rows displayed before
it, and two displays in a row print the same rows. -/
theorem analyzer_read_only (heap : Heap) (head : Option Nat) (R : List SuffixNode)
    (fuel : Nat) (word : CStr) (w : Option CStr)
    (hR : isList heap head R = true) (hfuel : R.length < fuel) :
    (findMatchingSuffixMem fuel heap head word).1 = heap ∧
      pointsTo heap (findMatchingSuffixMem fuel heap head word).2
        (findMatchingSuffix R word) ∧
      analyzeWordMem fuel heap head w = (heap, analyzeWord R w) ∧
      displaySuffixesMem fuel heap head = (heap, displaySuffixes R) ∧
      isList (analyzeWordMem fuel heap head w).1 head R = true ∧
      (displaySuffixesMem fuel (analyzeWordMem fuel heap head w).1 head).2 =
        (displaySuffixesMem fuel heap head).2 ∧
      (displaySuffixesMem fuel (displaySuffixesMem fuel heap head).1 head).2 =
        (displaySuffixesMem fuel heap head).2 := by
  have hfind := findMatchingSuffixLoopMem_heap word fuel heap head none 0
  have hpt := findMatchingSuffixLoopMem_pointsTo word heap R fuel head 0 none none 0
    hR hfuel (Or.inl ⟨rfl, rfl⟩)
  have han := analyzeWordMem_output heap R fuel head w hR hfuel
  have hdisp : displaySuffixesMem fuel heap head = (heap, displaySuffixes R) :=
    displayLoopMem_rows heap R fuel head 1 hR hfuel
  refine ⟨hfind, hpt, han, hdisp, ?_, ?_, ?_⟩
  · rw [han]
    exact hR
  · rw [han, hdisp]
  · rw [hdisp]
    show (displaySuffixesMem fuel heap head).2 = displaySuffixes R
    rw [hdisp]

/-- C13 on the memory `main` builds with its twelve `insertSuffix` calls: the
analysis of "Ramah" prints what `analyzeWord` gives on the seed entries and
leaves the memory unchanged, and the rows displayed afterwards are the twelve
seed rows. -/
theorem analyzer_read_only_witness :
    analyzeWordMem 13 seedMemory.1 seedMemory.2 (some "Ramah".toList) =
        (seedMemory.1, analyzeWord seedRegistry (some "Ramah".toList)) ∧
      (displaySuffixesMem 13
          (analyzeWordMem 13 seedMemory.1 seedMemory.2 (some "Ramah".toList)).1
          seedMemory.2).2 =
        (displaySuffixesMem 13 seedMemory.1 seedMemory.2).2 :=
  ⟨(analyzer_read_only seedMemory.1 seedMemory.2 seedRegistry 13 "Ramah".toList
      (some "Ramah".toList) (by decide) (by decide)).2.2.1,
    (analyzer_read_only seedMemory.1 seedMemory.2 seedRegistry 13 "Ramah".toList
      (some "Ramah".toList) (by decide) (by decide)).2.2.2.2.2.1⟩

/-! ## The stem length -/

/-- C14: an entry returned by `findMatchingSuffix` has a suffix no longer than
the word, so `stemLen = wordLen - sufLen` of `analyzeWord` is never negative,
and the test `stemLen <= 0` that selects the "(no stem)" branch holds only
when `stemLen = 0`. -/
theorem findMatchingSuffix_stemLen_nonneg (R : List SuffixNode) (w : CStr) (i : Nat)
    (e : SuffixNode) (h : findMatchingSuffix R w = some (i, e)) :
    e.suffix.length ≤ w.length ∧ 0 ≤ strlen w - strlen e.suffix ∧
      (strlen w - strlen e.suffix ≤ 0 ↔ strlen w - strlen e.suffix = 0) := by
  have hle : e.suffix.length ≤ w.length := by
    rcases findMatchingSuffix_cases R w with
      ⟨hr, _⟩ | ⟨i', e', hr, _, hme, _, _, _⟩
    · rw [hr] at h
      exact absurd h (by simp)
    · rw [hr] at h
      obtain ⟨rfl, rfl⟩ := Prod.mk.inj (Option.some.inj h)
      exact ((hasSuffix_iff_drop w _).1 hme).1
  unfold strlen
  refine ⟨hle, by omega, ?_⟩
  constructor <;> intro _ <;> omega

/-- C14 at the seed registry and the word "ena", where the stem length is 0. -/
theorem findMatchingSuffix_stemLen_nonneg_witness :
    "ena".toList.length ≤ "ena".toList.length ∧
      0 ≤ strlen "ena".toList - strlen "ena".toList ∧
      (strlen "ena".toList - strlen "ena".toList ≤ 0 ↔
        strlen "ena".toList - strlen "ena".toList = 0) :=
  findMatchingSuffix_stemLen_nonneg seedRegistry "ena".toList 2
    ⟨"ena".toList, "Instrumental singular (e.g. 'ramena')".toList⟩ (by decide)

/-! ## Reordering the registry -/

theorem hasSuffix_eq_of_length_eq (w a b : CStr) (ha : hasSuffix w a = true)
    (hb : hasSuffix w b = true) (hlen : a.length = b.length) : a = b := by
  have h1 := ((hasSuffix_iff_drop w a).1 ha).2
  have h2 := ((hasSuffix_iff_drop w b).1 hb).2
  rw [← h1, ← h2, hlen]

/-- C15: two different strings of equal length are never both trailing
substrings of one word; so for a registry whose suffixes are pairwise distinct
and any reordering of it, `findMatchingSuffix` returns the same entry, or no
match in both. Insertion order can change the entry returned only when the
registry holds a suffix string twice. -/
theorem findMatchingSuffix_perm (R R' : List SuffixNode) (w : CStr)
    (hperm : R.Perm R') (hdistinct : (R.map (fun e => e.suffix)).Nodup) :
    (∀ a b : CStr, hasSuffix w a = true → hasSuffix w b = true →
        a.length = b.length → a = b) ∧
      (findMatchingSuffix R w).map Prod.snd = (findMatchingSuffix R' w).map Prod.snd := by
  refine ⟨fun a b => hasSuffix_eq_of_length_eq w a b, ?_⟩
  rcases findMatchingSuffix_cases R w with
    ⟨hr, hall⟩ | ⟨i, e, hr, hi, hme, hpos, hmax, _⟩
  · rcases findMatchingSuffix_cases R' w with
      ⟨hr', _⟩ | ⟨i', e', hr', hi', hme', hpos', _, _⟩
    · rw [hr, hr']
    · have hmem : e' ∈ R := hperm.symm.subset (List.getElem?_mem hi')
      have := hall e' hmem hme'
      omega
  · rcases findMatchingSuffix_cases R' w with
      ⟨hr', hall'⟩ | ⟨i', e', hr', hi', hme', hpos', hmax', _⟩
    · have hmem : e ∈ R' := hperm.subset (List.getElem?_mem hi)
      have := hall' e hmem hme
      omega
    · have hmem : e ∈ R := List.getElem?_mem hi
      have hmem' : e' ∈ R := hperm.symm.subset (List.getElem?_mem hi')
      have h1 : e'.suffix.length ≤ e.suffix.length := hmax e' hmem' hme'
      have h2 : e.suffix.length ≤ e'.suffix.length :=
        hmax' e (hperm.subset hmem) hme
      have hs : e.suffix = e'.suffix :=
        hasSuffix_eq_of_length_eq w _ _ hme hme' (by omega)
      have hee : e = e' := List.inj_on_of_nodup_map hdistinct hmem hmem' hs
      rw [hr, hr', hee]
      rfl

/-- C15 at the seed registry and its reversal, for the word "vanesu": both
orders return the entry "esu". -/
theorem findMatchingSuffix_perm_witness :
    (∀ a b : CStr, hasSuffix "vanesu".toList a = true → hasSuffix "vanesu".toList b = true →
        a.length = b.length → a = b) ∧
      (findMatchingSuffix seedRegistry "vanesu".toList).map Prod.snd =
        (findMatchingSuffix seedRegistry.reverse "vanesu".toList).map Prod.snd :=
  findMatchingSuffix_perm seedRegistry seedRegistry.reverse "vanesu".toList
    (List.reverse_perm seedRegistry).symm (by decide)

/-! ## Stem and suffix of a report -/

theorem findMatchingSuffix_some_match (R : List SuffixNode) (w : CStr) (i : Nat)
    (e : SuffixNode) (h : findMatchingSuffix R w = some (i, e)) :
    hasSuffix w e.suffix = true ∧ 0 < e.suffix.length := by
  rcases findMatchingSuffix_cases R w with
    ⟨hr, _⟩ | ⟨i', e', hr, _, hme, hpos, _, _⟩
  · rw [hr] at h
    exact absurd h (by simp)
  · rw [hr] at h
    obtain ⟨rfl, rfl⟩ := Prod.mk.inj (Option.some.inj h)
    exact ⟨hme, hpos⟩

/-- C16: for a non-empty word `w` for which a match `e` is found: when
`len(w) > len(e.suffix)` a stem is reported that is non-empty and that followed
by the reported suffix is `w` exactly; when `len(w) = len(e.suffix)` the
reported suffix is `w` itself. -/
theorem analyzeWord_round_trip (R : List SuffixNode) (w : CStr) (i : Nat)
    (e : SuffixNode) (hw : w ≠ []) (h : findMatchingSuffix R w = some (i, e)) :
    (e.suffix.length < w.length →
        ∃ stem : CStr,
          analyzeWord R (some w) = Output.report w stem e.suffix e.category ∧
            stem ++ e.suffix = w ∧ stem ≠ []) ∧
      (e.suffix.length = w.length →
        analyzeWord R (some w) = Output.report w noStem e.suffix e.category ∧
          e.suffix = w) := by
  have hw0 : w.length ≠ 0 := fun h0 => hw (List.length_eq_zero.mp h0)
  have hdrop := ((hasSuffix_iff_drop w e.suffix).1
    (findMatchingSuffix_some_match R w i e h).1).2
  constructor
  · intro hlen
    have h1 : ¬ ((w.length : Int) - (e.suffix.length : Int) ≤ 0) := by omega
    have h2 : ((w.length : Int) - (e.suffix.length : Int)).toNat =
        w.length - e.suffix.length := by omega
    refine ⟨w.take (w.length - e.suffix.length), ?_, ?_, ?_⟩
    · simp only [analyzeWord, h, strlen, hw0, h1, h2, if_false]
    · have hsplit := List.take_append_drop (w.length - e.suffix.length) w
      rw [hdrop] at hsplit
      exact hsplit
    · intro hnil
      have hl := congrArg List.length hnil
      rw [List.length_take] at hl
      simp at hl
      omega
  · intro hlen
    have h1 : (w.length : Int) - (e.suffix.length : Int) ≤ 0 := by omega
    refine ⟨?_, ?_⟩
    · simp only [analyzeWord, h, strlen, hw0, h1, if_false, if_true]
    · rw [hlen, Nat.sub_self, List.drop_zero] at hdrop
      exact hdrop.symm

/-- C16 at the seed registry and the word "satyatva": the stem "satya"
followed by the suffix "tva" is the word. -/
theorem analyzeWord_round_trip_witness :
    ∃ stem : CStr,
      analyzeWord seedRegistry (some "satyatva".toList) =
          Output.report "satyatva".toList stem "tva".toList
            "Abstract noun forming suffix (e.g. 'satyatva')".toList ∧
        stem ++ "tva".toList = "satyatva".toList ∧ stem ≠ [] :=
  (analyzeWord_round_trip seedRegistry "satyatva".toList 8
    ⟨"tva".toList, "Abstract noun forming suffix (e.g. 'satyatva')".toList⟩
    (by decide) (by decide)).1 (by decide)

/-! ## Entries with an empty suffix -/

/-- C17 fails as stated: against the seed registry the word "su" is its own
matched suffix, and the stem reported is the sentinel "(no stem)" of 9 bytes,
which is not shorter than the word of 2 bytes. -/
theorem analyzeWord_stem_length_counterexample :
    analyzeWord seedRegistry (some "su".toList) =
        Output.report "su".toList "(no stem)".toList "su".toList
          "Locative plural (alternative)".toList ∧
      ¬ "(no stem)".toList.length < "su".toList.length := by
  decide

/-- C17, amended: an entry with an empty suffix is never selected: every entry
returned by `findMatchingSuffix` has a suffix of at least one byte. So the
stem length `len(w) - len(e.suffix)` is strictly less than `len(w)`, and when
the suffix is shorter than the word (the stem is then a prefix of the word,
not the sentinel) every stem `analyzeWord` reports is strictly shorter than
the word. -/
theorem findMatchingSuffix_suffix_nonempty (R : List SuffixNode) (w : CStr) (i : Nat)
    (e : SuffixNode) (h : findMatchingSuffix R w = some (i, e)) :
    1 ≤ e.suffix.length ∧ strlen w - strlen e.suffix < strlen w ∧
      (e.suffix.length < w.length →
        ∀ word stem suffix category : CStr,
          analyzeWord R (some w) = Output.report word stem suffix category →
            stem.length < w.length) := by
  obtain ⟨hm, hpos⟩ := findMatchingSuffix_some_match R w i e h
  refine ⟨hpos, by unfold strlen; omega, ?_⟩
  intro hlen word stem suffix category hrep
  have hw0 : w.length ≠ 0 := by omega
  have h1 : ¬ ((w.length : Int) - (e.suffix.length : Int) ≤ 0) := by omega
  have h2 : ((w.length : Int) - (e.suffix.length : Int)).toNat =
      w.length - e.suffix.length := by omega
  simp only [analyzeWord, h, strlen, hw0, h1, h2, if_false] at hrep
  simp only [Output.report.injEq] at hrep
  obtain ⟨_, hstem, _, _⟩ := hrep
  rw [← hstem, List.length_take]
  omega

/-- C17, amended, at a registry that holds an entry with the empty suffix in
front of "ah": for "Ramah" the entry "ah" is returned and the stem "Ram" is
shorter than the word. -/
theorem findMatchingSuffix_suffix_nonempty_witness :
    1 ≤ "ah".toList.length ∧ strlen "Ramah".toList - strlen "ah".toList < strlen "Ramah".toList ∧
      ("ah".toList.length < "Ramah".toList.length →
        ∀ word stem suffix category : CStr,
          analyzeWord [⟨[], "bare".toList⟩, ⟨"ah".toList, "nominative".toList⟩]
              (some "Ramah".toList) = Output.report word stem suffix category →
            stem.length < "Ramah".toList.length) :=
  findMatchingSuffix_suffix_nonempty [⟨[], "bare".toList⟩, ⟨"ah".toList, "nominative".toList⟩]
    "Ramah".toList 1 ⟨"ah".toList, "nominative".toList⟩ (by decide)

/-! ## Matching after an insert -/

theorem findMatchingSuffixLoop_append (w : CStr) (l₁ l₂ : List SuffixNode) (pos : Nat)
    (best : Option NodePtr) (bestLen : Int) :
    findMatchingSuffixLoop w (l₁ ++ l₂) pos best bestLen =
      findMatchingSuffixLoop w l₂ (pos + l₁.length)
        (findMatchingSuffixLoop w l₁ pos best bestLen)
        (findMatchingSuffixLen w l₁ bestLen) := by
  induction l₁ generalizing pos best bestLen with
  | nil => simp [findMatchingSuffixLoop, findMatchingSuffixLen]
  | cons n rest ih =>
    have hidx : pos + 1 + rest.length = pos + (rest.length + 1) := by omega
    rw [List.cons_append]
    by_cases hm : hasSuffix w n.suffix = true
    · by_cases hgt : strlen n.suffix > bestLen
      · simp only [findMatchingSuffixLoop, findMatchingSuffixLen, hm, hgt, if_true,
          List.length_cons]
        rw [ih, hidx]
      · simp only [findMatchingSuffixLoop, findMatchingSuffixLen, hm, hgt, if_true,
          if_false, List.length_cons]
        rw [ih, hidx]
    · simp only [findMatchingSuffixLoop, findMatchingSuffixLen, hm, List.length_cons,
        Bool.false_eq_true, if_false]
      rw [ih, hidx]

theorem findMatchingSuffixLen_eq_matchLen (w : CStr) (l : List SuffixNode) (pos : Nat)
    (best : Option NodePtr) (bestLen : Int) (h : bestLen = matchLen best) :
    findMatchingSuffixLen w l bestLen =
      matchLen (findMatchingSuffixLoop w l pos best bestLen) := by
  induction l generalizing pos best bestLen with
  | nil => simpa [findMatchingSuffixLoop, findMatchingSuffixLen] using h
  | cons n rest ih =>
    by_cases hm : hasSuffix w n.suffix = true
    · by_cases hgt : strlen n.suffix > bestLen
      · simp only [findMatchingSuffixLoop, findMatchingSuffixLen, hm, hgt, if_true]
        exact ih (pos + 1) (some (pos, n)) (strlen n.suffix) rfl
      · simp only [findMatchingSuffixLoop, findMatchingSuffixLen, hm, hgt, if_true,
          if_false]
        exact ih (pos + 1) best bestLen h
    · simp only [findMatchingSuffixLoop, findMatchingSuffixLen, hm]
      exact ih (pos + 1) best bestLen h

/-- The loop over a registry with one more entry at its end: the loop over the
registry, followed by one iteration on the new entry. -/
theorem findMatchingSuffix_append_singleton (R : List SuffixNode) (e : SuffixNode)
    (w : CStr) :
    findMatchingSuffix (R ++ [e]) w =
      if hasSuffix w e.suffix = true ∧ matchLen (findMatchingSuffix R w) < strlen e.suffix
      then some (R.length, e) else findMatchingSuffix R w := by
  unfold findMatchingSuffix
  rw [findMatchingSuffixLoop_append,
    findMatchingSuffixLen_eq_matchLen w R 0 none 0 rfl, Nat.zero_add]
  by_cases hm : hasSuffix w e.suffix = true
  · by_cases hgt : strlen e.suffix > matchLen (findMatchingSuffixLoop w R 0 none 0)
    · have hlt : matchLen (findMatchingSuffixLoop w R 0 none 0) < strlen e.suffix := hgt
      simp only [findMatchingSuffixLoop, hm, hgt, hlt, if_true, and_self]
    · have hlt : ¬ matchLen (findMatchingSuffixLoop w R 0 none 0) < strlen e.suffix := hgt
      simp only [findMatchingSuffixLoop, hm, hgt, hlt, if_true, if_false, and_false]
  · simp only [findMatchingSuffixLoop, hm, false_and, if_false]
    rfl

/-- C18: for the registry `R` with the entry `(s, c)` appended (what
`insertSuffix` builds, the entry being the one it stores),
`findMatchingSuffix` returns the new entry when `s` matches the word and is
strictly longer than the suffix returned on `R` (longer than 0 when nothing
was returned), and otherwise returns exactly what it returned on `R`; so the
length of the best match never decreases. -/
theorem findMatchingSuffix_after_insert (R : List SuffixNode) (s c : CStr) (w : CStr) :
    (hasSuffix w s = true ∧ matchLen (findMatchingSuffix R w) < strlen s →
        findMatchingSuffix (R ++ [⟨s, c⟩]) w = some (R.length, ⟨s, c⟩)) ∧
      (¬ (hasSuffix w s = true ∧ matchLen (findMatchingSuffix R w) < strlen s) →
        findMatchingSuffix (R ++ [⟨s, c⟩]) w = findMatchingSuffix R w) ∧
      matchLen (findMatchingSuffix R w) ≤ matchLen (findMatchingSuffix (R ++ [⟨s, c⟩]) w) ∧
      insertSuffix R s c = R ++ [createNode s c] ∧
      (s.length ≤ 19 → c.length ≤ 79 → insertSuffix R s c = R ++ [⟨s, c⟩]) := by
  have happ := findMatchingSuffix_append_singleton R ⟨s, c⟩ w
  refine ⟨?_, ?_, ?_, insertSuffix_eq_append R s c, ?_⟩
  · intro hcond
    rw [happ, if_pos hcond]
  · intro hcond
    rw [happ, if_neg hcond]
  · by_cases hcond : hasSuffix w s = true ∧ matchLen (findMatchingSuffix R w) < strlen s
    · rw [happ, if_pos hcond]
      exact le_of_lt hcond.2
    · rw [happ, if_neg hcond]
  · intro hs hc
    rw [insertSuffix_eq_append]
    show R ++ [⟨List.take 19 s, List.take 79 c⟩] = R ++ [⟨s, c⟩]
    rw [List.take_of_length_le hs, List.take_of_length_le hc]

/-- C18 at the seed registry, the word "bhavati" and the new entry "ati": the
seed registry returns no match for the word, with "ati" appended the new
thirteenth entry is returned. -/
theorem findMatchingSuffix_after_insert_witness :
    findMatchingSuffix seedRegistry "bhavati".toList = none ∧
      findMatchingSuffix (seedRegistry ++ [⟨"ati".toList, "Present third singular".toList⟩])
        "bhavati".toList =
          some (seedRegistry.length, ⟨"ati".toList, "Present third singular".toList⟩) :=
  ⟨by decide,
    (findMatchingSuffix_after_insert seedRegistry "ati".toList
      "Present third singular".toList "bhavati".toList).1 ⟨by decide, by decide⟩⟩

/-! ## Stored lengths -/

theorem createNode_length (s c : CStr) :
    (createNode s c).suffix.length ≤ 19 ∧ (createNode s c).category.length ≤ 79 := by
  constructor
  · show (List.take 19 s).length ≤ 19
    rw [List.length_take]
    exact Nat.min_le_left _ _
  · show (List.take 79 c).length ≤ 79
    rw [List.length_take]
    exact Nat.min_le_left _ _

theorem insertSuffix_length_bound (R : List SuffixNode) (s c : CStr)
    (hR : ∀ e ∈ R, e.suffix.length ≤ 19 ∧ e.category.length ≤ 79) :
    ∀ e ∈ insertSuffix R s c, e.suffix.length ≤ 19 ∧ e.category.length ≤ 79 := by
  intro e he
  rw [insertSuffix_eq_append, List.mem_append, List.mem_singleton] at he
  rcases he with he | rfl
  · exact hR e he
  · exact createNode_length s c

theorem mainLoop_length_bound (R : List SuffixNode) (cmds : List Command)
    (hR : ∀ e ∈ R, e.suffix.length ≤ 19 ∧ e.category.length ≤ 79) :
    ∀ e ∈ (mainLoop R cmds).1, e.suffix.length ≤ 19 ∧ e.category.length ≤ 79 := by
  induction cmds generalizing R with
  | nil => exact hR
  | cons cmd rest ih =>
    apply ih
    cases cmd with
    | showAll => exact hR
    | analyze word => exact hR
    | add s c => exact insertSuffix_length_bound R s c hR

theorem take_min_length (n : Nat) (s : CStr) : s.take (min s.length n) = s.take n := by
  by_cases h : s.length ≤ n
  · rw [Nat.min_eq_left h, List.take_of_length_le h, List.take_of_length_le (le_refl _)]
  · rw [Nat.min_eq_right (by omega)]

/-- C19: `insertSuffix(R, s, c)` stores, after the entries of `R`, the entry
holding the first `min(len(s), 19)` bytes of `s` and the first
`min(len(c), 79)` bytes of `c`; an insert keeps the bounds 19 and 79 on the
entries, so every entry of every registry the menu loop reaches from the seed
registry has a suffix of at most 19 bytes and a category of at most 79; and
the stored pair is `(s, c)` exactly when `len(s) <= 19` and `len(c) <= 79`. -/
theorem insertSuffix_stored_bound (R : List SuffixNode) (s c : CStr)
    (cmds : List Command) :
    insertSuffix R s c =
        R ++ [⟨s.take (min s.length 19), c.take (min c.length 79)⟩] ∧
      ((∀ e ∈ R, e.suffix.length ≤ 19 ∧ e.category.length ≤ 79) →
        ∀ e ∈ insertSuffix R s c, e.suffix.length ≤ 19 ∧ e.category.length ≤ 79) ∧
      (∀ e ∈ (mainLoop seedRegistry cmds).1,
        e.suffix.length ≤ 19 ∧ e.category.length ≤ 79) ∧
      (insertSuffix R s c = R ++ [⟨s, c⟩] ↔ s.length ≤ 19 ∧ c.length ≤ 79) := by
  have hins : insertSuffix R s c = R ++ [⟨List.take 19 s, List.take 79 c⟩] :=
    insertSuffix_eq_append R s c
  refine ⟨?_, insertSuffix_length_bound R s c, ?_, ?_⟩
  · rw [take_min_length, take_min_length]
    exact hins
  · exact mainLoop_length_bound seedRegistry cmds (by decide)
  · rw [hins]
    constructor
    · intro h
      have hnode := List.singleton_inj.mp (List.append_cancel_left h)
      have hs : List.take 19 s = s := congrArg SuffixNode.suffix hnode
      have hc : List.take 79 c = c := congrArg SuffixNode.category hnode
      have hls := congrArg List.length hs
      have hlc := congrArg List.length hc
      rw [List.length_take] at hls hlc
      omega
    · rintro ⟨hs, hc⟩
      rw [List.take_of_length_le hs, List.take_of_length_le hc]

/-- C19 at the seed registry: after adding a suffix of 26 bytes every entry is
within the bounds, the new one holding the first 19 bytes. -/
theorem insertSuffix_stored_bound_witness :
    ∀ e ∈ insertSuffix seedRegistry "abcdefghijklmnopqrstuvwxyz".toList "alphabet".toList,
      e.suffix.length ≤ 19 ∧ e.category.length ≤ 79 :=
  (insertSuffix_stored_bound seedRegistry "abcdefghijklmnopqrstuvwxyz".toList
    "alphabet".toList []).2.1 (by decide)

/-! ## The examples quoted in the seed table -/

/-- C20: against the seed registry, "vanesu" is split into the stem "van" and
the suffix "esu" although the shorter seed suffix "su" matches too, "ramena"
into "ram" and "ena", "devasya" into "dev" and "asya", "satyatva" into "satya"
and "tva"; each reported category is the seed text that quotes the word. -/
theorem analyzeWord_seed_examples :
    (analyzeWord seedRegistry (some "vanesu".toList) =
        Output.report "vanesu".toList "van".toList "esu".toList
          "Locative plural (e.g. 'vanesu')".toList ∧
      hasSuffix "vanesu".toList "su".toList = true ∧
      "vanesu".toList <:+: "Locative plural (e.g. 'vanesu')".toList) ∧
    (analyzeWord seedRegistry (some "ramena".toList) =
        Output.report "ramena".toList "ram".toList "ena".toList
          "Instrumental singular (e.g. 'ramena')".toList ∧
      "ramena".toList <:+: "Instrumental singular (e.g. 'ramena')".toList) ∧
    (analyzeWord seedRegistry (some "devasya".toList) =
        Output.report "devasya".toList "dev".toList "asya".toList
          "Genitive singular (e.g. 'devasya')".toList ∧
      "devasya".toList <:+: "Genitive singular (e.g. 'devasya')".toList) ∧
    (analyzeWord seedRegistry (some "satyatva".toList) =
        Output.report "satyatva".toList "satya".toList "tva".toList
          "Abstract noun forming suffix (e.g. 'satyatva')".toList ∧
      "satyatva".toList <:+: "Abstract noun forming suffix (e.g. 'satyatva')".toList) :=
  ⟨⟨by decide, by decide, "Locative plural (e.g. '".toList, "')".toList, by decide⟩,
    ⟨by decide, "Instrumental singular (e.g. '".toList, "')".toList, by decide⟩,
    ⟨by decide, "Genitive singular (e.g. '".toList, "')".toList, by decide⟩,
    ⟨by decide, "Abstract noun forming suffix (e.g. '".toList, "')".toList, by decide⟩⟩

end MinorProject
